import Mathlib

/-!
Formal model of the concurrent patch-evaluation pipeline of the
LLM-Code-Repair repository: `src/evaluate/evaluate_patches.py` (the core),
its structural variant `src/validate/validate_patches.py`, and the metrics
aggregator `src/report/report_metrics.py`.  Pure functions of the Python
source are embedded as Lean functions; the stateful checkout coordination
is embedded as an explicit transition system; fallible code returns
`Option`.
-/

/-- The closed outcome taxonomy `EvaluationResult` of
`evaluate_patches.py` (lines 22-27). -/
inductive EvaluationResult where
  | PLAUSIBLE
  | FAILING
  | UNCOMPILABLE
  | FAILED_TEST_EXECUTION
  | TIMEOUT
  deriving DecidableEq, Repr

/-- The string attached to each `EvaluationResult` member (its `.value`). -/
def EvaluationResult.value : EvaluationResult → String
  | .PLAUSIBLE => "plausible"
  | .FAILING => "failing"
  | .UNCOMPILABLE => "uncompilable"
  | .FAILED_TEST_EXECUTION => "failed_test_execution"
  | .TIMEOUT => "timeout"

/-- `PatchEvaluation.apply_patch` (evaluate_patches.py lines 79-91), and
identically `Validator.apply_patch` (validate_patches.py lines 52-65):
`new_lines = lines[:first_line - 1]
  + self.patch.function.splitlines(keepends=True) + lines[last_line:]`.
`lines` is the file content as returned by `f.readlines()`; `patch_lines`
is the candidate text split by `splitlines(keepends=True)`.  The bounds
are the locus fields, 1-based and inclusive; on the nonnegative bounds a
locus carries, the Python slices are `take` and `drop`. -/
def apply_patch (lines : List String) (first_line last_line : Nat)
    (patch_lines : List String) : List String :=
  lines.take (first_line - 1) ++ patch_lines ++ lines.drop last_line

/-- C1: for a file of `L` lines and a locus `[f, l]` with `1 ≤ f ≤ l ≤ L`,
applying a `K`-line patch yields `L - (l - f + 1) + K` lines; lines
`1..f-1` keep their original positions and order, the patch lines sit
contiguously right after them, and the original lines `l+1..L` follow
contiguously right after the patch, in their original order. -/
theorem apply_patch_spec (lines patch_lines : List String) (f l : Nat)
    (h1 : 1 ≤ f) (h2 : f ≤ l) (h3 : l ≤ lines.length) :
    (apply_patch lines f l patch_lines).length
        = lines.length - (l - f + 1) + patch_lines.length
    ∧ (∀ i, i < f - 1 →
        (apply_patch lines f l patch_lines).get? i = lines.get? i)
    ∧ (∀ i, i < patch_lines.length →
        (apply_patch lines f l patch_lines).get? (f - 1 + i)
          = patch_lines.get? i)
    ∧ (∀ i, (apply_patch lines f l patch_lines).get? (f - 1 + patch_lines.length + i)
        = lines.get? (l + i)) := by
  have htake : (lines.take (f - 1)).length = f - 1 := by
    rw [List.length_take]; omega
  refine ⟨?_, ?_, ?_, ?_⟩
  · simp only [apply_patch, List.length_append, List.length_take,
      List.length_drop]
    omega
  · intro i hi
    rw [apply_patch, List.append_assoc, List.get?_append (by omega),
      List.get?_take (by omega)]
  · intro i hi
    rw [apply_patch, List.append_assoc,
      List.get?_append_right (by omega), htake]
    rw [show f - 1 + i - (f - 1) = i by omega, List.get?_append hi]
  · intro i
    rw [apply_patch, List.append_assoc,
      List.get?_append_right (by omega), htake]
    rw [show f - 1 + patch_lines.length + i - (f - 1) = patch_lines.length + i
        by omega]
    rw [List.get?_append_right (by omega),
      show patch_lines.length + i - patch_lines.length = i by omega,
      List.get?_drop]

/-- Witness for C1 at a concrete input: a 4-line file, locus [2,3],
3-line patch. -/
theorem apply_patch_spec_witness :
    (apply_patch ["a\n", "b\n", "c\n", "d\n"] 2 3 ["x\n", "y\n", "z\n"]).length
        = 4 - (3 - 2 + 1) + 3
    ∧ (apply_patch ["a\n", "b\n", "c\n", "d\n"] 2 3 ["x\n", "y\n", "z\n"]).get? 0
        = (["a\n", "b\n", "c\n", "d\n"] : List String).get? 0 :=
  ⟨(apply_patch_spec ["a\n", "b\n", "c\n", "d\n"] ["x\n", "y\n", "z\n"] 2 3
      (by decide) (by decide) (by decide)).1,
   (apply_patch_spec ["a\n", "b\n", "c\n", "d\n"] ["x\n", "y\n", "z\n"] 2 3
      (by decide) (by decide) (by decide)).2.1 0 (by decide)⟩

/-- C9: when `last_line` exceeds the file length (with a well-formed
1-based `first_line ≤ L`), the rewrite keeps exactly the original lines
`1..first_line-1` followed by the patch lines, and nothing else
(`lines[last_line:]` is empty). -/
theorem apply_patch_overflow (lines patch_lines : List String) (f l : Nat)
    (h1 : 1 ≤ f) (h2 : f ≤ lines.length) (h3 : lines.length < l) :
    apply_patch lines f l patch_lines = lines.take (f - 1) ++ patch_lines := by
  unfold apply_patch
  rw [List.drop_eq_nil_of_le (by omega), List.append_nil]

/-- Witness for C9 at a concrete input: a 3-line file, locus [2,5]. -/
theorem apply_patch_overflow_witness :
    apply_patch ["a\n", "b\n", "c\n"] 2 5 ["x\n"]
      = (["a\n", "b\n", "c\n"] : List String).take 1 ++ ["x\n"] :=
  apply_patch_overflow ["a\n", "b\n", "c\n"] ["x\n"] 2 5
    (by decide) (by decide) (by decide)

/-- How the worker-side `PatchEvaluation.evaluate` (lines 59-64) finishes:
one of the exceptions its phases raise, or normal completion carrying the
content of the `failing_tests` report file that `passes_tests`
(lines 105-107) reads.  `checkoutFailure` is the plain `Exception` raised
by `checkout_project` (lines 72-77); `compileFailure` is `CompileError`
(lines 93-97); `testRunFailure` is `TestError` (lines 99-103);
`subprocessTimeout` is `subprocess.TimeoutExpired` from the 10-minute
per-phase timeouts. -/
inductive EvaluateOutcome where
  | checkoutFailure
  | compileFailure
  | testRunFailure
  | subprocessTimeout
  | completed (failing_tests : String)
  deriving DecidableEq, Repr

/-- `PatchEvaluation.passes_tests` (lines 105-107): the `failing_tests`
report file content equals the empty string. -/
def passes_tests (failing_tests : String) : Bool :=
  failing_tests = ""

/-- `PatchEvaluation.await_result` (lines 109-122).  `doneAt` is the moment
the unit's future completes, `deadline` the end of the window that
`future.result(timeout=15*60)` waits in.  When the future is not done by
the deadline, `concurrent.futures.TimeoutError` is raised and caught as
`TIMEOUT`; otherwise the future's stored exception or return value is
classified by the `except` clauses and `passes_tests`.  `none` models an
exception caught by no clause (the checkout failure), which escapes
`await_result`. -/
def await_result (doneAt deadline : Nat) (ev : EvaluateOutcome) :
    Option EvaluationResult :=
  if deadline < doneAt then
    some .TIMEOUT
  else
    match ev with
    | .checkoutFailure => none
    | .compileFailure => some .UNCOMPILABLE
    | .testRunFailure => some .FAILED_TEST_EXECUTION
    | .subprocessTimeout => some .TIMEOUT
    | .completed failing_tests =>
        if passes_tests failing_tests then some .PLAUSIBLE else some .FAILING

/-- C2: each unit completing in one of the enumerated conditions is
assigned exactly one outcome from the closed taxonomy: `uncompilable` on
compile failure, `failed_test_execution` when the test invocation fails to
run, `timeout` on a per-phase subprocess timeout or when the deadline
elapses before completion, and on a successful compile and test run
`plausible` or `failing` according to the emptiness of the failing-tests
report. -/
theorem await_result_classification (doneAt deadline : Nat)
    (failing_tests : String) (h : doneAt ≤ deadline) :
    await_result doneAt deadline .compileFailure = some .UNCOMPILABLE
    ∧ await_result doneAt deadline .testRunFailure
        = some .FAILED_TEST_EXECUTION
    ∧ await_result doneAt deadline .subprocessTimeout = some .TIMEOUT
    ∧ (∀ d, deadline < d → ∀ ev, await_result d deadline ev = some .TIMEOUT)
    ∧ (failing_tests = "" →
        await_result doneAt deadline (.completed failing_tests)
          = some .PLAUSIBLE)
    ∧ (failing_tests ≠ "" →
        await_result doneAt deadline (.completed failing_tests)
          = some .FAILING) := by
  have hnot : ¬ deadline < doneAt := by omega
  refine ⟨?_, ?_, ?_, ?_, ?_, ?_⟩
  · simp [await_result, hnot]
  · simp [await_result, hnot]
  · simp [await_result, hnot]
  · intro d hd ev
    simp [await_result, hd]
  · intro he
    simp [await_result, hnot, passes_tests, he]
  · intro he
    simp [await_result, hnot, passes_tests, he]

/-- Witness for C2 at concrete inputs: a compile failure completing before
the deadline, and a completed run with an empty failing-tests report. -/
theorem await_result_classification_witness :
    await_result 3 10 .compileFailure = some .UNCOMPILABLE
    ∧ await_result 3 10 (.completed "") = some .PLAUSIBLE :=
  ⟨(await_result_classification 3 10 "" (by decide)).1,
   (await_result_classification 3 10 "" (by decide)).2.2.2.2.1 rfl⟩

/-- C3: a unit whose deadline elapses before its future completes is
classified `timeout` whatever its phases were doing, compile failure
included: the observed timeout takes priority and the unit never reports
`uncompilable` or `failing`. -/
theorem await_result_timeout_priority (doneAt deadline : Nat)
    (ev : EvaluateOutcome) (h : deadline < doneAt) :
    await_result doneAt deadline ev = some .TIMEOUT
    ∧ await_result doneAt deadline ev ≠ some .UNCOMPILABLE
    ∧ await_result doneAt deadline ev ≠ some .FAILING := by
  refine ⟨by simp [await_result, h], ?_, ?_⟩ <;> simp [await_result, h]

/-- Witness for C3 at a concrete input: the compile phase fails but the
future only completes after the deadline. -/
theorem await_result_timeout_priority_witness :
    await_result 20 10 .compileFailure = some .TIMEOUT
    ∧ await_result 20 10 .compileFailure ≠ some .UNCOMPILABLE :=
  ⟨(await_result_timeout_priority 20 10 .compileFailure (by decide)).1,
   (await_result_timeout_priority 20 10 .compileFailure (by decide)).2.1⟩

/-- One element of the evaluation queue: the `PatchEvaluation` object built
by `create_evaluation_queue` (lines 177-188), restricted to the fields the
awaited run and the persisted result observe — the bug's id, project and
number, the candidate's prompt index, patch index and literal text. -/
structure QueuedUnit where
  bugId : String
  project : String
  number : String
  promptIndex : Nat
  patchIndex : Nat
  text : String
  deriving DecidableEq, Repr

/-- The sequential result loop of `main` (lines 163-166): for each queued
unit in order, `await_result` then `write_result`.  Each list element is a
unit together with the completion time and completion event of its future;
the output collects the (unit, outcome) pairs that get persisted.  A unit
whose `await_result` raises an exception no `except` clause catches
(`await_result` = `none`) aborts the loop: the exception propagates out of
`main`'s for-loop and no later unit is awaited or persisted. -/
def await_loop (deadline : Nat) :
    List (QueuedUnit × Nat × EvaluateOutcome) →
      List (QueuedUnit × EvaluationResult)
  | [] => []
  | (u, doneAt, ev) :: rest =>
    match await_result doneAt deadline ev with
    | some r => (u, r) :: await_loop deadline rest
    | none => []

/-- C8 counterexample: a checkout failure on one bug's unit aborts the
whole awaiting loop, so a later unit of a different bug — one that
completed successfully and in time — is never classified or persisted.
The persisted list is empty although the queue holds a healthy unit of
bug `BugB-2`. -/
theorem checkout_failure_not_isolated_cex :
    await_loop 10
      [(⟨"BugA-1", "BugA", "1", 0, 0, "ta"⟩, 0, .checkoutFailure),
       (⟨"BugB-2", "BugB", "2", 0, 0, "tb"⟩, 0, .completed "")] = []
    ∧ ("BugB-2" : String) ≠ "BugA-1" := by
  refine ⟨?_, by decide⟩
  rfl

/-- C8 amended: the three per-unit errors (compile failure, test-execution
failure, deadline exceeded — either per-phase subprocess timeout or the
future missing the await deadline) are each caught at the unit boundary and
converted into an outcome; among the modelled completions only a checkout
failure escapes `await_result`, and when it does the awaiting loop stops
there: the persisted results are exactly those of the units before it, and
no unit after it in queue order — of any bug — is classified or
persisted. -/
theorem checkout_failure_aborts_await_loop (deadline doneAt : Nat)
    (pre rest : List (QueuedUnit × Nat × EvaluateOutcome)) (u : QueuedUnit)
    (hdone : doneAt ≤ deadline) :
    (∀ d ev, ev ≠ .checkoutFailure → (await_result d deadline ev).isSome)
    ∧ (∀ d ev, await_result d deadline ev = none ↔
        (ev = .checkoutFailure ∧ d ≤ deadline))
    ∧ await_loop deadline (pre ++ (u, doneAt, .checkoutFailure) :: rest)
        = await_loop deadline pre := by
  have escape : ∀ d ev, await_result d deadline ev = none ↔
      (ev = EvaluateOutcome.checkoutFailure ∧ d ≤ deadline) := by
    intro d ev
    by_cases hd : deadline < d
    · simp [await_result, hd]
    · cases ev with
      | checkoutFailure =>
        simp [await_result, hd]
        omega
      | compileFailure => simp [await_result, hd]
      | testRunFailure => simp [await_result, hd]
      | subprocessTimeout => simp [await_result, hd]
      | completed s =>
        by_cases hs : s = "" <;> simp [await_result, hd, passes_tests, hs]
  refine ⟨?_, escape, ?_⟩
  · intro d ev hne
    rw [Option.isSome_iff_ne_none]
    intro hnone
    exact hne ((escape d ev).mp hnone).1
  · induction pre with
    | nil =>
      simp only [List.nil_append, await_loop]
      rw [(escape doneAt .checkoutFailure).mpr ⟨rfl, hdone⟩]
    | cons hd tl ih =>
      obtain ⟨u', d', ev'⟩ := hd
      simp only [List.cons_append, await_loop]
      cases h : await_result d' deadline ev' with
      | none => rfl
      | some r => simp only [List.append_eq, List.append_eq] at ih ⊢; rw [ih]

/-- Witness for C8's amended claim at a concrete input: one healthy unit
before the checkout-failing unit, one healthy unit after it; exactly the
earlier unit's result is persisted. -/
theorem checkout_failure_aborts_await_loop_witness :
    await_loop 10
      [(⟨"BugC-3", "BugC", "3", 0, 0, "tc"⟩, 0, .completed ""),
       (⟨"BugA-1", "BugA", "1", 0, 1, "ta"⟩, 0, .checkoutFailure),
       (⟨"BugB-2", "BugB", "2", 0, 0, "tb"⟩, 0, .completed "")]
      = await_loop 10 [(⟨"BugC-3", "BugC", "3", 0, 0, "tc"⟩, 0, .completed "")] :=
  (checkout_failure_aborts_await_loop 10 0
    [(⟨"BugC-3", "BugC", "3", 0, 0, "tc"⟩, 0, .completed "")]
    [(⟨"BugB-2", "BugB", "2", 0, 0, "tb"⟩, 0, .completed "")]
    ⟨"BugA-1", "BugA", "1", 0, 1, "ta"⟩ (by decide)).2.2

/-- Program counter of one worker running `PatchEvaluation.copy_project`
(lines 66-70): `start` before entering `with self.bug.checkout_lock`;
`checking` holding the lock, about to test
`os.path.exists(self.original_directory)`; `checkingOut` holding the lock
after a negative existence test, about to run `checkout_project`;
`cloning` past the `with` block, about to `shutil.copytree` from the
original directory; `finished` after the copy. -/
inductive WorkerPC where
  | start
  | checking
  | checkingOut
  | cloning
  | finished
  deriving DecidableEq, Repr

/-- Shared state of the workers that need one bug's checkout: which worker
holds that bug's `threading.Lock` (built once at startup by
`create_bug_checkout_locks`, lines 170-175, keyed by bug id), whether the
bug's `original` directory exists, how many times the external
`defects4j checkout` command has been invoked for this bug, and every
worker's position inside `copy_project`. -/
structure CheckoutState (W : Type) where
  lockHolder : Option W
  originalExists : Bool
  checkoutCount : Nat
  pc : W → WorkerPC

/-- Interleaving semantics of `copy_project` for one bug: each constructor
is one atomic step of one worker.  A worker acquires the free lock, tests
directory existence under it, runs the external checkout (which creates
the directory — the spec treats the external tool as an already-correct
oracle) only when the test was negative, releases the lock on leaving the
`with` block (merged into the last action performed under it), and then
clones. -/
inductive CheckoutStep {W : Type} [DecidableEq W] :
    CheckoutState W → CheckoutState W → Prop where
  | acquire (s : CheckoutState W) (w : W) :
      s.pc w = .start → s.lockHolder = none →
      CheckoutStep s { s with lockHolder := some w,
                              pc := Function.update s.pc w .checking }
  | checkExists (s : CheckoutState W) (w : W) :
      s.pc w = .checking → s.originalExists = true →
      CheckoutStep s { s with lockHolder := none,
                              pc := Function.update s.pc w .cloning }
  | checkNotExists (s : CheckoutState W) (w : W) :
      s.pc w = .checking → s.originalExists = false →
      CheckoutStep s { s with pc := Function.update s.pc w .checkingOut }
  | doCheckout (s : CheckoutState W) (w : W) :
      s.pc w = .checkingOut →
      CheckoutStep s { s with originalExists := true,
                              checkoutCount := s.checkoutCount + 1,
                              lockHolder := none,
                              pc := Function.update s.pc w .cloning }
  | clone (s : CheckoutState W) (w : W) :
      s.pc w = .cloning →
      CheckoutStep s { s with pc := Function.update s.pc w .finished }

/-- Initial state: after `main` wipes the `tmp` working directory
(lines 152-155), no worker holds the lock, the bug's original directory
does not exist, the checkout command has never run, and every worker is
before the lock. -/
def initCheckoutState (W : Type) : CheckoutState W :=
  { lockHolder := none, originalExists := false, checkoutCount := 0,
    pc := fun _ => .start }

/-- States reachable by any interleaving of the workers. -/
inductive CheckoutReachable {W : Type} [DecidableEq W] :
    CheckoutState W → Prop where
  | init : CheckoutReachable (initCheckoutState W)
  | step {s t : CheckoutState W} :
      CheckoutReachable s → CheckoutStep s t → CheckoutReachable t

/-- Inductive invariant of the checkout coordination. -/
structure CheckoutInv {W : Type} (s : CheckoutState W) : Prop where
  count_le : s.checkoutCount ≤ 1
  count_zero : s.originalExists = false → s.checkoutCount = 0
  count_one : s.originalExists = true → s.checkoutCount = 1
  holder_checking : ∀ w, s.pc w = .checking → s.lockHolder = some w
  holder_checkingOut : ∀ w, s.pc w = .checkingOut → s.lockHolder = some w
  no_dir_checkingOut : ∀ w, s.pc w = .checkingOut → s.originalExists = false
  dir_cloning : ∀ w, s.pc w = .cloning → s.originalExists = true
  dir_finished : ∀ w, s.pc w = .finished → s.originalExists = true

/-- The invariant holds in every reachable state. -/
theorem checkoutInv_of_reachable {W : Type} [DecidableEq W]
    {s : CheckoutState W} (h : CheckoutReachable s) : CheckoutInv s := by
  induction h with
  | init =>
    refine ⟨by simp [initCheckoutState], fun _ => rfl, ?_, ?_, ?_, ?_, ?_, ?_⟩ <;>
      simp [initCheckoutState]
  | step _ hstep ih =>
    obtain ⟨c_le, c_zero, c_one, h_chk, h_cko, nd_cko, d_cl, d_fin⟩ := ih
    cases hstep with
    | acquire w hpc hlock =>
      refine ⟨c_le, c_zero, c_one, ?_, ?_, ?_, ?_, ?_⟩ <;> intro w' hw' <;>
        simp only [Function.update_apply] at hw'
      · by_cases hww : w' = w
        · simp [hww]
        · rw [if_neg hww] at hw'
          have hc := h_chk w' hw'
          rw [hlock] at hc
          exact Option.noConfusion hc
      · by_cases hww : w' = w
        · rw [if_pos hww] at hw'
          simp at hw'
        · rw [if_neg hww] at hw'
          have hc := h_cko w' hw'
          rw [hlock] at hc
          exact Option.noConfusion hc
      · by_cases hww : w' = w
        · rw [if_pos hww] at hw'
          simp at hw'
        · rw [if_neg hww] at hw'
          exact nd_cko w' hw'
      · by_cases hww : w' = w
        · rw [if_pos hww] at hw'
          simp at hw'
        · rw [if_neg hww] at hw'
          exact d_cl w' hw'
      · by_cases hww : w' = w
        · rw [if_pos hww] at hw'
          simp at hw'
        · rw [if_neg hww] at hw'
          exact d_fin w' hw'
    | checkExists w hpc hdir =>
      refine ⟨c_le, c_zero, c_one, ?_, ?_, ?_, ?_, ?_⟩ <;> intro w' hw' <;>
        simp only [Function.update_apply] at hw'
      · by_cases hww : w' = w
        · rw [if_pos hww] at hw'
          simp at hw'
        · rw [if_neg hww] at hw'
          have h1 := h_chk w' hw'
          rw [h_chk w hpc] at h1
          exact absurd (Option.some.inj h1).symm hww
      · by_cases hww : w' = w
        · rw [if_pos hww] at hw'
          simp at hw'
        · rw [if_neg hww] at hw'
          have h1 := h_cko w' hw'
          rw [h_chk w hpc] at h1
          exact absurd (Option.some.inj h1).symm hww
      · by_cases hww : w' = w
        · rw [if_pos hww] at hw'
          simp at hw'
        · rw [if_neg hww] at hw'
          have h1 := h_cko w' hw'
          rw [h_chk w hpc] at h1
          exact absurd (Option.some.inj h1).symm hww
      · exact hdir
      · by_cases hww : w' = w
        · rw [if_pos hww] at hw'
          simp at hw'
        · rw [if_neg hww] at hw'
          exact d_fin w' hw'
    | checkNotExists w hpc hdir =>
      refine ⟨c_le, c_zero, c_one, ?_, ?_, ?_, ?_, ?_⟩ <;> intro w' hw' <;>
        simp only [Function.update_apply] at hw'
      · by_cases hww : w' = w
        · rw [if_pos hww] at hw'
          simp at hw'
        · rw [if_neg hww] at hw'
          exact h_chk w' hw'
      · by_cases hww : w' = w
        · rw [hww]
          exact h_chk w hpc
        · rw [if_neg hww] at hw'
          exact h_cko w' hw'
      · exact hdir
      · by_cases hww : w' = w
        · rw [if_pos hww] at hw'
          simp at hw'
        · rw [if_neg hww] at hw'
          exact d_cl w' hw'
      · by_cases hww : w' = w
        · rw [if_pos hww] at hw'
          simp at hw'
        · rw [if_neg hww] at hw'
          exact d_fin w' hw'
    | doCheckout w hpc =>
      have hzero := c_zero (nd_cko w hpc)
      have hlock := h_cko w hpc
      refine ⟨by simp [hzero], by intro hc; simp at hc, fun _ => by simp [hzero],
        ?_, ?_, ?_, fun w' hw' => rfl, fun w' hw' => rfl⟩ <;> intro w' hw' <;>
        simp only [Function.update_apply] at hw'
      · by_cases hww : w' = w
        · rw [if_pos hww] at hw'
          simp at hw'
        · rw [if_neg hww] at hw'
          have h1 := h_chk w' hw'
          rw [hlock] at h1
          exact absurd (Option.some.inj h1).symm hww
      · by_cases hww : w' = w
        · rw [if_pos hww] at hw'
          simp at hw'
        · rw [if_neg hww] at hw'
          have h1 := h_cko w' hw'
          rw [hlock] at h1
          exact absurd (Option.some.inj h1).symm hww
      · by_cases hww : w' = w
        · rw [if_pos hww] at hw'
          simp at hw'
        · rw [if_neg hww] at hw'
          have h1 := h_cko w' hw'
          rw [hlock] at h1
          exact absurd (Option.some.inj h1).symm hww
    | clone w hpc =>
      refine ⟨c_le, c_zero, c_one, ?_, ?_, ?_, ?_, ?_⟩ <;> intro w' hw' <;>
        simp only [Function.update_apply] at hw'
      · by_cases hww : w' = w
        · rw [if_pos hww] at hw'
          simp at hw'
        · rw [if_neg hww] at hw'
          exact h_chk w' hw'
      · by_cases hww : w' = w
        · rw [if_pos hww] at hw'
          simp at hw'
        · rw [if_neg hww] at hw'
          exact h_cko w' hw'
      · by_cases hww : w' = w
        · rw [if_pos hww] at hw'
          simp at hw'
        · rw [if_neg hww] at hw'
          exact nd_cko w' hw'
      · by_cases hww : w' = w
        · rw [if_pos hww] at hw'
          simp at hw'
        · rw [if_neg hww] at hw'
          exact d_cl w' hw'
      · by_cases hww : w' = w
        · exact d_cl w hpc
        · rw [if_neg hww] at hw'
          exact d_fin w' hw'

/-- C4: in every reachable interleaving of any number of workers racing
for one bug's checkout, the external `defects4j checkout` command has been
invoked at most once; a worker only proceeds to cloning after the pristine
directory exists — it already existed or was created, under the bug's
lock, by the single checkout invocation — and whenever some worker has
reached cloning the checkout side effect has happened exactly once. -/
theorem checkout_at_most_once (W : Type) [DecidableEq W]
    (s : CheckoutState W) (h : CheckoutReachable s) :
    s.checkoutCount ≤ 1
    ∧ (∀ w, s.pc w = .cloning → s.originalExists = true)
    ∧ (∀ w, s.pc w = .cloning → s.checkoutCount = 1) := by
  obtain ⟨c_le, _, c_one, _, _, _, d_cl, _⟩ := checkoutInv_of_reachable h
  exact ⟨c_le, d_cl, fun w hw => c_one (d_cl w hw)⟩

/-- Intermediate states of a two-worker schedule: worker `false` acquires
the lock, finds no directory, checks out, releases; worker `true` then
acquires, finds the directory, releases; both are at the cloning step. -/
def checkoutDemo0 : CheckoutState Bool := initCheckoutState Bool

/-- Worker `false` has acquired the lock. -/
def checkoutDemo1 : CheckoutState Bool :=
  { checkoutDemo0 with lockHolder := some false,
                       pc := Function.update checkoutDemo0.pc false .checking }

/-- Worker `false` has found the directory missing. -/
def checkoutDemo2 : CheckoutState Bool :=
  { checkoutDemo1 with pc := Function.update checkoutDemo1.pc false .checkingOut }

/-- Worker `false` has run the checkout and released the lock. -/
def checkoutDemo3 : CheckoutState Bool :=
  { checkoutDemo2 with originalExists := true,
                       checkoutCount := checkoutDemo2.checkoutCount + 1,
                       lockHolder := none,
                       pc := Function.update checkoutDemo2.pc false .cloning }

/-- Worker `true` has acquired the lock. -/
def checkoutDemo4 : CheckoutState Bool :=
  { checkoutDemo3 with lockHolder := some true,
                       pc := Function.update checkoutDemo3.pc true .checking }

/-- Worker `true` has found the directory present and released the lock. -/
def checkoutDemo5 : CheckoutState Bool :=
  { checkoutDemo4 with lockHolder := none,
                       pc := Function.update checkoutDemo4.pc true .cloning }

/-- Witness for C4 on the concrete two-worker schedule: at its end the
checkout has run exactly once and the directory exists. -/
theorem checkout_at_most_once_witness :
    checkoutDemo5.checkoutCount ≤ 1 ∧ checkoutDemo5.originalExists = true := by
  have hreach : CheckoutReachable checkoutDemo5 :=
    .step (.step (.step (.step (.step .init
      (.acquire _ false rfl rfl))
      (.checkNotExists _ false rfl rfl))
      (.doCheckout _ false rfl))
      (.acquire _ true rfl rfl))
      (.checkExists _ true rfl rfl)
  exact ⟨(checkout_at_most_once Bool checkoutDemo5 hreach).1,
    (checkout_at_most_once Bool checkoutDemo5 hreach).2.1 false rfl⟩

/-- A string is empty exactly when its character list is. -/
theorem string_data_eq_nil (s : String) : s.data = [] ↔ s = "" := by
  cases s with
  | mk d =>
    constructor
    · intro h
      have hd : d = [] := h
      subst hd
      rfl
    · intro h
      rw [h]

/-- Appending keeps a nonempty right part's characters, so the result is
nonempty. -/
theorem str_append_data_ne_nil (a b : String) (hb : b.data ≠ []) :
    (a ++ b).data ≠ [] := by
  rw [String.data_append]
  intro h
  exact hb (List.append_eq_nil.mp h).2

/-- The last character of an appended string is the right part's last
character when the right part is nonempty. -/
theorem getLast_str_append (a b : String) (hb : b.data ≠ []) :
    (a ++ b).data.getLast? = b.data.getLast? := by
  rw [String.data_append, List.getLast?_append]
  cases hbl : b.data.getLast? with
  | none => exact absurd (List.getLast?_eq_none.mp hbl) hb
  | some c => rfl

/-- Characters produced by `Nat.toDigitsCore 10` are decimal digit
characters or come from the accumulator. -/
theorem mem_toDigitsCore_ten (fuel : Nat) :
    ∀ (n : Nat) (acc : List Char) (c : Char),
      c ∈ Nat.toDigitsCore 10 fuel n acc →
      (∃ d, d < 10 ∧ c = Nat.digitChar d) ∨ c ∈ acc := by
  induction fuel with
  | zero =>
    intro n acc c hc
    exact Or.inr hc
  | succ fuel ih =>
    intro n acc c hc
    simp only [Nat.toDigitsCore] at hc
    split at hc
    · rcases List.mem_cons.mp hc with h | h
      · exact Or.inl ⟨n % 10, Nat.mod_lt _ (by omega), h⟩
      · exact Or.inr h
    · rcases ih _ _ _ hc with h | h
      · exact Or.inl h
      · rcases List.mem_cons.mp h with h2 | h2
        · exact Or.inl ⟨n % 10, Nat.mod_lt _ (by omega), h2⟩
        · exact Or.inr h2

/-- `Nat.toDigitsCore 10` never returns an empty list when given positive
fuel or a nonempty accumulator. -/
theorem toDigitsCore_ten_ne_nil (fuel : Nat) :
    ∀ (n : Nat) (acc : List Char), (acc ≠ [] ∨ fuel ≠ 0) →
      Nat.toDigitsCore 10 fuel n acc ≠ [] := by
  induction fuel with
  | zero =>
    intro n acc h
    rcases h with h | h
    · exact h
    · exact absurd rfl h
  | succ fuel ih =>
    intro n acc _
    simp only [Nat.toDigitsCore]
    split
    · simp
    · exact ih _ _ (Or.inl (by simp))

/-- The decimal representation of any natural number is nonempty. -/
theorem natRepr_data_ne_nil (n : Nat) : (Nat.repr n).data ≠ [] :=
  toDigitsCore_ten_ne_nil (n + 1) n [] (Or.inr (Nat.succ_ne_zero n))

/-- The decimal representation of a natural number contains no slash; in
particular it does not end in one. -/
theorem natRepr_getLast_ne_slash (n : Nat) :
    (Nat.repr n).data.getLast? ≠ some '/' := by
  intro h
  have hmem : '/' ∈ (Nat.repr n).data := by
    obtain ⟨hne, heq⟩ := List.mem_getLast?_eq_getLast h
    rw [heq]
    exact List.getLast_mem hne
  have hdigits : ∀ d, d < 10 → Nat.digitChar d ≠ '/' := by decide
  rcases mem_toDigitsCore_ten (n + 1) n [] '/' hmem with ⟨d, hd, hc⟩ | hin
  · exact hdigits d hd hc.symm
  · exact absurd hin (List.not_mem_nil _)

/-- `posixpath.join` for two components, as `os.path.join(a, b)` computes
it on POSIX: an absolute second component replaces the path built so far;
otherwise it is appended, inserting a separator unless the path so far is
empty or already ends in the separator. -/
def os_path_join2 (a b : String) : String :=
  if b.data.head? = some '/' then b
  else if a = "" then b
  else if a.data.getLast? = some '/' then a ++ b
  else a ++ "/" ++ b

/-- `os.path.join(p, q, r, ...)`: fold `os_path_join2` over the remaining
components from the left. -/
def os_path_join : List String → String
  | [] => ""
  | p :: ps => ps.foldl os_path_join2 p

/-- `PatchEvaluation.write_result` (lines 124-133): the target path is
`os.path.join(results_path, project, number, prompt-i, outcome value,
patch-j.txt)`; `os.makedirs(os.path.dirname(path), exist_ok=True)` then
creates every intermediate directory and the verbatim candidate text
`self.patch.function` is written to the path.  The model returns the
(path, written content) pair. -/
def write_result (results_path project number : String) (prompt_index : Nat)
    (result : EvaluationResult) (patch_index : Nat) (function : String) :
    String × String :=
  (os_path_join [results_path, project, number,
      "prompt-" ++ toString prompt_index, result.value,
      "patch-" ++ toString patch_index ++ ".txt"], function)

/-- Joining a clean relative component onto a clean nonempty path inserts
exactly one separator. -/
theorem os_path_join2_clean (a b : String) (ha : a.data ≠ [])
    (haL : a.data.getLast? ≠ some '/') (hbH : b.data.head? ≠ some '/') :
    os_path_join2 a b = a ++ "/" ++ b := by
  unfold os_path_join2
  rw [if_neg hbH, if_neg (fun he => ha ((string_data_eq_nil a).mpr he)),
    if_neg haL]

/-- C5: for any unit reaching classification, the persisted path is
exactly results-root/project/bug-number/prompt-promptIndex/outcome
value/patch-patchIndex.txt and the written content is the verbatim
candidate text.  The hypotheses state that the configured results root
and the dataset's project and bug-number strings are nonempty, relative
(no leading separator) and without a trailing separator, as `os.path.join`
otherwise rewrites the path. -/
theorem write_result_path (results_path project number : String)
    (prompt_index : Nat) (result : EvaluationResult) (patch_index : Nat)
    (function : String)
    (hroot1 : results_path.data ≠ [])
    (hroot2 : results_path.data.getLast? ≠ some '/')
    (hproj0 : project.data.head? ≠ some '/')
    (hproj1 : project.data ≠ [])
    (hproj2 : project.data.getLast? ≠ some '/')
    (hnum0 : number.data.head? ≠ some '/')
    (hnum1 : number.data ≠ [])
    (hnum2 : number.data.getLast? ≠ some '/') :
    write_result results_path project number prompt_index result patch_index
        function
      = (results_path ++ "/" ++ project ++ "/" ++ number ++ "/"
          ++ ("prompt-" ++ toString prompt_index) ++ "/" ++ result.value ++ "/"
          ++ ("patch-" ++ toString patch_index ++ ".txt"), function) := by
  have hvalue0 : result.value.data.head? ≠ some '/' := by
    cases result <;> decide
  have hvalue1 : result.value.data ≠ [] := by
    cases result <;> decide
  have hvalue2 : result.value.data.getLast? ≠ some '/' := by
    cases result <;> decide
  have hc3H : ("prompt-" ++ toString prompt_index).data.head? ≠ some '/' := by
    have hp : ("prompt-" ++ toString prompt_index).data.head? = some 'p' := rfl
    rw [hp]
    decide
  have hc3N : ("prompt-" ++ toString prompt_index).data ≠ [] := by
    intro h
    rw [String.data_append] at h
    exact absurd (List.append_eq_nil.mp h).1 (by decide)
  have hc3L : ("prompt-" ++ toString prompt_index).data.getLast? ≠ some '/' := by
    have hb : (toString prompt_index).data ≠ [] :=
      natRepr_data_ne_nil prompt_index
    rw [getLast_str_append _ _ hb]
    exact natRepr_getLast_ne_slash prompt_index
  have hc5H :
      ("patch-" ++ toString patch_index ++ ".txt").data.head? ≠ some '/' := by
    have hp :
        ("patch-" ++ toString patch_index ++ ".txt").data.head? = some 'p' := rfl
    rw [hp]
    decide
  have h1 : os_path_join2 results_path project
      = results_path ++ "/" ++ project :=
    os_path_join2_clean _ _ hroot1 hroot2 hproj0
  have hj1N : (results_path ++ "/" ++ project).data ≠ [] :=
    str_append_data_ne_nil _ _ hproj1
  have hj1L : (results_path ++ "/" ++ project).data.getLast? ≠ some '/' := by
    rw [getLast_str_append _ _ hproj1]
    exact hproj2
  have h2 : os_path_join2 (results_path ++ "/" ++ project) number
      = results_path ++ "/" ++ project ++ "/" ++ number :=
    os_path_join2_clean _ _ hj1N hj1L hnum0
  have hj2N : (results_path ++ "/" ++ project ++ "/" ++ number).data ≠ [] :=
    str_append_data_ne_nil _ _ hnum1
  have hj2L : (results_path ++ "/" ++ project ++ "/" ++ number).data.getLast?
      ≠ some '/' := by
    rw [getLast_str_append _ _ hnum1]
    exact hnum2
  have h3 : os_path_join2 (results_path ++ "/" ++ project ++ "/" ++ number)
        ("prompt-" ++ toString prompt_index)
      = results_path ++ "/" ++ project ++ "/" ++ number ++ "/"
          ++ ("prompt-" ++ toString prompt_index) :=
    os_path_join2_clean _ _ hj2N hj2L hc3H
  have hj3N : (results_path ++ "/" ++ project ++ "/" ++ number ++ "/"
      ++ ("prompt-" ++ toString prompt_index)).data ≠ [] :=
    str_append_data_ne_nil _ _ hc3N
  have hj3L : (results_path ++ "/" ++ project ++ "/" ++ number ++ "/"
      ++ ("prompt-" ++ toString prompt_index)).data.getLast? ≠ some '/' := by
    rw [getLast_str_append _ _ hc3N]
    exact hc3L
  have h4 : os_path_join2 (results_path ++ "/" ++ project ++ "/" ++ number
        ++ "/" ++ ("prompt-" ++ toString prompt_index)) result.value
      = results_path ++ "/" ++ project ++ "/" ++ number ++ "/"
          ++ ("prompt-" ++ toString prompt_index) ++ "/" ++ result.value :=
    os_path_join2_clean _ _ hj3N hj3L hvalue0
  have hj4N : (results_path ++ "/" ++ project ++ "/" ++ number ++ "/"
      ++ ("prompt-" ++ toString prompt_index) ++ "/" ++ result.value).data
      ≠ [] :=
    str_append_data_ne_nil _ _ hvalue1
  have hj4L : (results_path ++ "/" ++ project ++ "/" ++ number ++ "/"
      ++ ("prompt-" ++ toString prompt_index) ++ "/"
      ++ result.value).data.getLast? ≠ some '/' := by
    rw [getLast_str_append _ _ hvalue1]
    exact hvalue2
  have h5 : os_path_join2 (results_path ++ "/" ++ project ++ "/" ++ number
        ++ "/" ++ ("prompt-" ++ toString prompt_index) ++ "/" ++ result.value)
        ("patch-" ++ toString patch_index ++ ".txt")
      = results_path ++ "/" ++ project ++ "/" ++ number ++ "/"
          ++ ("prompt-" ++ toString prompt_index) ++ "/" ++ result.value
          ++ "/" ++ ("patch-" ++ toString patch_index ++ ".txt") :=
    os_path_join2_clean _ _ hj4N hj4L hc5H
  unfold write_result os_path_join
  simp only [List.foldl_cons, List.foldl_nil]
  rw [h1, h2, h3, h4, h5]

/-- Witness for C5 at a concrete input: outcome `plausible`, prompt 0,
patch 2. -/
theorem write_result_path_witness :
    write_result "results" "Chart" "1" 0 .PLAUSIBLE 2 "fixed code"
      = ("results" ++ "/" ++ "Chart" ++ "/" ++ "1" ++ "/"
          ++ ("prompt-" ++ toString (0 : Nat)) ++ "/"
          ++ EvaluationResult.PLAUSIBLE.value ++ "/"
          ++ ("patch-" ++ toString (2 : Nat) ++ ".txt"), "fixed code") :=
  write_result_path "results" "Chart" "1" 0 .PLAUSIBLE 2 "fixed code"
    (by decide) (by decide) (by decide) (by decide) (by decide) (by decide)
    (by decide) (by decide)

/-- Python `int(..)` on a string of decimal digits, characterwise;
`none` models the `ValueError` raised on a malformed string. -/
def parse_nat (cs : List Char) : Option Nat :=
  if cs ≠ [] ∧ cs.all Char.isDigit then
    some (cs.foldl (fun acc c => 10 * acc + (c.toNat - 48)) 0)
  else
    none

/-- The per-prompt reciprocal rank computed by `get_project_sum_rr`
(report_metrics.py lines 59-72).  `outcome_dirs` is
`os.listdir(args.r/project/bug/prompt)`; `plausible_listing` is
`os.listdir(.../prompt/plausible)` in whatever order the operating system
returns the directory entries.  When a `plausible` subdirectory exists the
code takes the FIRST listed entry `f` and computes
`1 / (int(f[6:-4]) + 1)` — the characterwise slice `f[6:-4]` dropping the
prefix `patch-` and the suffix `.txt`; otherwise the reciprocal rank is 0.
`none` models the `IndexError`/`ValueError` the code would raise on an
empty listing or a malformed file name. -/
def prompt_rr (outcome_dirs plausible_listing : List String) : Option ℚ :=
  if "plausible" ∈ outcome_dirs then
    match plausible_listing with
    | [] => none
    | f :: _ =>
      match parse_nat ((f.data.drop 6).take ((f.data.drop 6).length - 4)) with
      | some idx => some (1 / (idx + 1 : ℚ))
      | none => none
  else
    some 0

/-- C7, the code evaluated at the failing input: a prompt whose plausible
candidates sit at patch indices 2 and 10.  `os.listdir` may return
`patch-10.txt` before `patch-2.txt` (this is even the sorted order, since
listings are not ordered numerically), and then the code computes
reciprocal rank 1/11, although the lowest plausible patch index 2 demands
1/3; the code also yields 1/3 whenever the listing happens to start with
`patch-2.txt`, so the computed value depends on listing order, not on the
lowest plausible index. -/
theorem prompt_rr_failing_input :
    prompt_rr ["plausible"] ["patch-10.txt", "patch-2.txt"] = some (1 / 11)
    ∧ prompt_rr ["plausible"] ["patch-2.txt", "patch-10.txt"] = some (1 / 3)
    ∧ (1 / 11 : ℚ) ≠ 1 / 3 := by
  refine ⟨?_, ?_, by norm_num⟩ <;> simp [prompt_rr, parse_nat] <;> norm_num

/-- The fields of one entry of the bug dataset that the queue and the
persisted results observe (the `Bug` object of lines 35-42 keeps the id,
the replacement locus and the lock as well; those are modelled
separately). -/
structure BugRecord where
  project : String
  number : String
  deriving DecidableEq, Repr

/-- The inner loop of `create_evaluation_queue` (line 182):
`for patch_index, patched_function in enumerate(prompt_patches)`, starting
at index `patch_index`, one `PatchEvaluation` per candidate text. -/
def promptUnits (bug_id project number : String) (prompt_index : Nat) :
    Nat → List String → List QueuedUnit
  | _, [] => []
  | patch_index, t :: ts =>
    ⟨bug_id, project, number, prompt_index, patch_index, t⟩ ::
      promptUnits bug_id project number prompt_index (patch_index + 1) ts

/-- The middle loop of `create_evaluation_queue` (line 181):
`for prompt_index, prompt_patches in enumerate(bug_patches)`, starting at
index `prompt_index`. -/
def bugUnits (bug_id project number : String) :
    Nat → List (List String) → List QueuedUnit
  | _, [] => []
  | prompt_index, ps :: pss =>
    promptUnits bug_id project number prompt_index 0 ps ++
      bugUnits bug_id project number (prompt_index + 1) pss

/-- `create_evaluation_queue` (lines 177-188) before the final
`random.shuffle`: the outer loop walks the bug dataset in order and asks
the patch dataset for `patches[bug_id]`; both datasets are JSON objects,
modelled as association lists in insertion order.  A bug id with no patch
entry raises `KeyError`, modelled as `none`. -/
def create_evaluation_queue (bugs : List (String × BugRecord))
    (patches : List (String × List (List String))) :
    Option (List QueuedUnit) :=
  match bugs with
  | [] => some []
  | (bug_id, rec) :: rest =>
    match patches.lookup bug_id, create_evaluation_queue rest patches with
    | some pss, some q =>
        some (bugUnits bug_id rec.project rec.number 0 pss ++ q)
    | _, _ => none

/-- The number of candidate texts in one bug's patch-dataset entry. -/
def candidateCount (pss : List (List String)) : Nat :=
  (pss.map List.length).sum

/-- The address of one persisted result: the path components of
`write_result` below the results root.  The path is the record — no other
index exists. -/
structure ResultAddr where
  project : String
  number : String
  promptIndex : Nat
  outcome : EvaluationResult
  patchIndex : Nat
  deriving DecidableEq, Repr

/-- The address at which `write_result` persists a classified unit. -/
def resultAddr (u : QueuedUnit) (outcome : EvaluationResult) : ResultAddr :=
  ⟨u.project, u.number, u.promptIndex, outcome, u.patchIndex⟩

/-- Length of one prompt's unit block. -/
theorem promptUnits_length (bug_id project number : String)
    (prompt_index : Nat) :
    ∀ (j : Nat) (ts : List String),
      (promptUnits bug_id project number prompt_index j ts).length
        = ts.length := by
  intro j ts
  induction ts generalizing j with
  | nil => rfl
  | cons t0 ts ih => simp [promptUnits, ih]

/-- Length of one bug's unit block. -/
theorem bugUnits_length (bug_id project number : String) :
    ∀ (i : Nat) (pss : List (List String)),
      (bugUnits bug_id project number i pss).length = candidateCount pss := by
  intro i pss
  induction pss generalizing i with
  | nil => rfl
  | cons ps pss ih =>
    simp [bugUnits, candidateCount, promptUnits_length, ih,
      List.length_append]

/-- Membership in one prompt's block: exactly the units built from the
positions of the candidate list, with patch indices counted from `j`. -/
theorem mem_promptUnits (bug_id project number : String) (prompt_index : Nat) :
    ∀ (j : Nat) (ts : List String) (u : QueuedUnit),
      u ∈ promptUnits bug_id project number prompt_index j ts ↔
        ∃ k t, ts.get? k = some t ∧
          u = ⟨bug_id, project, number, prompt_index, j + k, t⟩ := by
  intro j ts
  induction ts generalizing j with
  | nil =>
    intro u
    simp [promptUnits]
  | cons t0 ts ih =>
    intro u
    rw [promptUnits, List.mem_cons, ih (j + 1)]
    constructor
    · rintro (rfl | ⟨k, t, hk, rfl⟩)
      · exact ⟨0, t0, rfl, by simp⟩
      · exact ⟨k + 1, t, hk, by rw [show j + (k + 1) = j + 1 + k by omega]⟩
    · rintro ⟨k, t, hk, rfl⟩
      cases k with
      | zero =>
        left
        have ht : t0 = t := by
          have : some t0 = some t := hk
          exact Option.some.inj this
        rw [← ht]
        simp
      | succ k =>
        right
        exact ⟨k, t, hk, by rw [show j + (k + 1) = j + 1 + k by omega]⟩

/-- Membership in one bug's block: exactly the units built from the
positions of the prompt list, with prompt indices counted from `i`. -/
theorem mem_bugUnits (bug_id project number : String) :
    ∀ (i : Nat) (pss : List (List String)) (u : QueuedUnit),
      u ∈ bugUnits bug_id project number i pss ↔
        ∃ k ps m t, pss.get? k = some ps ∧ ps.get? m = some t ∧
          u = ⟨bug_id, project, number, i + k, m, t⟩ := by
  intro i pss
  induction pss generalizing i with
  | nil =>
    intro u
    simp [bugUnits]
  | cons ps0 pss ih =>
    intro u
    rw [bugUnits, List.mem_append, ih (i + 1),
      mem_promptUnits bug_id project number i 0 ps0 u]
    constructor
    · rintro (⟨m, t, hm, rfl⟩ | ⟨k, ps, m, t, hk, hm, rfl⟩)
      · exact ⟨0, ps0, m, t, rfl, hm, by simp⟩
      · exact ⟨k + 1, ps, m, t, hk, hm,
          by rw [show i + (k + 1) = i + 1 + k by omega]⟩
    · rintro ⟨k, ps, m, t, hk, hm, rfl⟩
      cases k with
      | zero =>
        left
        have hps : ps0 = ps := Option.some.inj hk
        subst hps
        exact ⟨m, t, hm, by simp⟩
      | succ k =>
        right
        exact ⟨k, ps, m, t, hk, hm,
          by rw [show i + (k + 1) = i + 1 + k by omega]⟩

/-- In one prompt's block the patch indices `j, j+1, ...` are hit exactly
once each. -/
theorem countP_promptUnits (bug_id project number : String)
    (prompt_index pj : Nat) :
    ∀ (j : Nat) (ts : List String),
      (promptUnits bug_id project number prompt_index j ts).countP
          (fun u => decide (u.patchIndex = pj))
        = if j ≤ pj ∧ pj < j + ts.length then 1 else 0 := by
  intro j ts
  induction ts generalizing j with
  | nil =>
    rw [promptUnits, List.countP_nil, eq_comm, List.length_nil,
      if_neg (by omega)]
  | cons t0 ts ih =>
    rw [promptUnits, List.countP_cons, ih (j + 1)]
    simp only [decide_eq_true_eq, List.length_cons]
    by_cases hj : j = pj
    · subst hj
      rw [if_pos rfl, if_neg (by omega), if_pos (by omega)]
    · rw [if_neg hj, Nat.add_zero]
      by_cases h2 : j + 1 ≤ pj ∧ pj < j + 1 + ts.length
      · rw [if_pos h2, if_pos (by omega)]
      · rw [if_neg h2, if_neg (by omega)]

/-- A block built for another prompt index contains no unit of prompt
`pi`. -/
theorem countP_promptUnits_other (bug_id project number : String)
    (prompt_index pi pj : Nat) (hne : prompt_index ≠ pi) (j : Nat)
    (ts : List String) :
    (promptUnits bug_id project number prompt_index j ts).countP
        (fun u => decide (u.promptIndex = pi ∧ u.patchIndex = pj)) = 0 := by
  rw [List.countP_eq_zero]
  intro u hu
  obtain ⟨k, t, hk, rfl⟩ :=
    (mem_promptUnits bug_id project number prompt_index j ts u).mp hu
  simp only [decide_eq_true_eq]
  intro hcontra
  exact hne hcontra.1

/-- On its own prompt's block the pair predicate counts patch indices. -/
theorem countP_promptUnits_pair (bug_id project number : String)
    (pi pj : Nat) (j : Nat) (ts : List String) :
    (promptUnits bug_id project number pi j ts).countP
        (fun u => decide (u.promptIndex = pi ∧ u.patchIndex = pj))
      = if j ≤ pj ∧ pj < j + ts.length then 1 else 0 := by
  rw [← countP_promptUnits bug_id project number pi pj j ts]
  apply List.countP_congr
  intro u hu
  obtain ⟨k, t, hk, rfl⟩ :=
    (mem_promptUnits bug_id project number pi j ts u).mp hu
  simp

/-- A bug block started at prompt index `i` has no unit of any smaller
prompt index. -/
theorem countP_bugUnits_lt (bug_id project number : String) (pi pj : Nat) :
    ∀ (i : Nat) (pss : List (List String)), pi < i →
      (bugUnits bug_id project number i pss).countP
          (fun u => decide (u.promptIndex = pi ∧ u.patchIndex = pj)) = 0 := by
  intro i pss hlt
  rw [List.countP_eq_zero]
  intro u hu
  obtain ⟨k, ps, m, t, hk, hm, rfl⟩ :=
    (mem_bugUnits bug_id project number i pss u).mp hu
  simp only [decide_eq_true_eq]
  intro hcontra
  omega

/-- In one bug's block a (prompt, patch) position present in the dataset
is hit by exactly one unit. -/
theorem countP_bugUnits_pair (bug_id project number : String) (pi pj : Nat) :
    ∀ (i k : Nat) (pss : List (List String)) (ps : List String),
      pss.get? k = some ps → pi = i + k → pj < ps.length →
      (bugUnits bug_id project number i pss).countP
          (fun u => decide (u.promptIndex = pi ∧ u.patchIndex = pj)) = 1 := by
  intro i k pss
  induction pss generalizing i k with
  | nil =>
    intro ps hk
    simp at hk
  | cons ps0 pss ih =>
    intro ps hk hpi hpj
    rw [bugUnits, List.countP_append]
    cases k with
    | zero =>
      have hps : ps0 = ps := Option.some.inj hk
      subst hps
      have hpi0 : pi = i := by omega
      rw [hpi0, countP_promptUnits_pair bug_id project number i pj 0 ps0,
        if_pos (by omega), countP_bugUnits_lt bug_id project number i pj
          (i + 1) pss (by omega)]
    | succ k =>
      rw [countP_promptUnits_other bug_id project number i pi pj (by omega) 0
        ps0]
      have hk2 : pss.get? k = some ps := hk
      rw [ih (i + 1) k ps hk2 (by omega) hpj]

/-- Every queued unit was built from its bug's dataset entry and from the
candidate at its (prompt, patch) position of the patch dataset: the unit
carries that bug's project and number and the candidate's literal text. -/
theorem mem_create_evaluation_queue :
    ∀ (bugs : List (String × BugRecord))
      (patches : List (String × List (List String))) (q : List QueuedUnit),
      create_evaluation_queue bugs patches = some q →
      ∀ u ∈ q, ∃ rec pss ps,
        (u.bugId, rec) ∈ bugs ∧ u.project = rec.project
        ∧ u.number = rec.number ∧ patches.lookup u.bugId = some pss
        ∧ pss.get? u.promptIndex = some ps
        ∧ ps.get? u.patchIndex = some u.text := by
  intro bugs
  induction bugs with
  | nil =>
    intro patches q hq u hu
    rw [create_evaluation_queue] at hq
    rw [← Option.some.inj hq] at hu
    exact absurd hu (List.not_mem_nil u)
  | cons head rest ih =>
    obtain ⟨bid0, rec0⟩ := head
    intro patches q hq u hu
    cases hl : patches.lookup bid0 with
    | none =>
      rw [create_evaluation_queue, hl] at hq
      exact absurd hq (by simp)
    | some pss0 =>
      cases hr : create_evaluation_queue rest patches with
      | none =>
        rw [create_evaluation_queue, hl, hr] at hq
        exact absurd hq (by simp)
      | some q2 =>
        rw [create_evaluation_queue, hl, hr] at hq
        rw [← Option.some.inj hq] at hu
        rcases List.mem_append.mp hu with hleft | hright
        · obtain ⟨k, ps, m, t, hk, hm, rfl⟩ :=
            (mem_bugUnits bid0 rec0.project rec0.number 0 pss0 _).mp hleft
          refine ⟨rec0, pss0, ps, List.mem_cons_self _ _, rfl, rfl, hl, ?_, hm⟩
          simpa using hk
        · obtain ⟨rec, pss, ps, hmem, hp, hn, hlk, hpi, hpj⟩ :=
            ih patches q2 hr u hright
          exact ⟨rec, pss, ps, List.mem_cons_of_mem _ hmem, hp, hn, hlk,
            hpi, hpj⟩

/-- On a block of its own bug the triple predicate reduces to the
(prompt, patch) pair predicate. -/
theorem countP_bugUnits_triple (bug_id project number : String)
    (pi pj : Nat) (i : Nat) (pss : List (List String)) :
    (bugUnits bug_id project number i pss).countP
        (fun u => decide (u.bugId = bug_id ∧ u.promptIndex = pi
          ∧ u.patchIndex = pj))
      = (bugUnits bug_id project number i pss).countP
          (fun u => decide (u.promptIndex = pi ∧ u.patchIndex = pj)) := by
  apply List.countP_congr
  intro u hu
  obtain ⟨k, ps, m, t, hk, hm, rfl⟩ :=
    (mem_bugUnits bug_id project number i pss u).mp hu
  simp

/-- A block of a different bug contributes nothing to the triple
predicate's count. -/
theorem countP_bugUnits_other_bug (bug_id project number bid : String)
    (pi pj : Nat) (hne : bug_id ≠ bid) (i : Nat)
    (pss : List (List String)) :
    (bugUnits bug_id project number i pss).countP
        (fun u => decide (u.bugId = bid ∧ u.promptIndex = pi
          ∧ u.patchIndex = pj)) = 0 := by
  rw [List.countP_eq_zero]
  intro u hu
  obtain ⟨k, ps, m, t, hk, hm, rfl⟩ :=
    (mem_bugUnits bug_id project number i pss u).mp hu
  simp only [decide_eq_true_eq]
  intro hcontra
  exact hne hcontra.1

/-- Every unit of one bug's block names that bug. -/
theorem countP_bugUnits_bug (bug_id project number bid : String) (i : Nat)
    (pss : List (List String)) :
    (bugUnits bug_id project number i pss).countP
        (fun u => decide (u.bugId = bid))
      = if bug_id = bid then candidateCount pss else 0 := by
  by_cases hb : bug_id = bid
  · subst hb
    rw [if_pos rfl, ← bugUnits_length bug_id project number i pss,
      List.countP_eq_length]
    intro u hu
    obtain ⟨k, ps, m, t, hk, hm, rfl⟩ :=
      (mem_bugUnits bug_id project number i pss u).mp hu
    simp
  · rw [if_neg hb, List.countP_eq_zero]
    intro u hu
    obtain ⟨k, ps, m, t, hk, hm, rfl⟩ :=
      (mem_bugUnits bug_id project number i pss u).mp hu
    simp only [decide_eq_true_eq]
    exact hb

/-- In an association list with distinct keys, a key determines its
value. -/
theorem assoc_value_unique {β : Type} :
    ∀ (l : List (String × β)), (l.map Prod.fst).Nodup →
      ∀ (k : String) (a b : β), (k, a) ∈ l → (k, b) ∈ l → a = b := by
  intro l
  induction l with
  | nil =>
    intro _ k a b ha
    exact absurd ha (List.not_mem_nil _)
  | cons hd tl ih =>
    obtain ⟨k0, v0⟩ := hd
    intro hnd k a b ha hb
    rw [List.map_cons, List.nodup_cons] at hnd
    obtain ⟨h1, h2⟩ := hnd
    rcases List.mem_cons.mp ha with heqa | ha2 <;>
      rcases List.mem_cons.mp hb with heqb | hb2
    · injection heqa with hk hv
      injection heqb with hk2 hv2
      rw [hv, hv2]
    · injection heqa with hk hv
      have hmm2 := List.mem_map_of_mem Prod.fst hb2
      rw [← hk] at h1
      exact absurd hmm2 h1
    · injection heqb with hk hv
      have hmm2 := List.mem_map_of_mem Prod.fst ha2
      rw [← hk] at h1
      exact absurd hmm2 h1
    · exact ih h2 k a b ha2 hb2

/-- A dataset position (bug id in the bug dataset, prompt index, patch
index of the patch dataset) is hit by exactly one queued unit. -/
theorem countP_queue_triple :
    ∀ (bugs : List (String × BugRecord))
      (patches : List (String × List (List String))) (q : List QueuedUnit),
      create_evaluation_queue bugs patches = some q →
      (bugs.map Prod.fst).Nodup →
      ∀ (bid : String) (pss : List (List String)) (ps : List String)
        (pi pj : Nat),
        bid ∈ bugs.map Prod.fst → patches.lookup bid = some pss →
        pss.get? pi = some ps → pj < ps.length →
        q.countP (fun u => decide (u.bugId = bid ∧ u.promptIndex = pi
          ∧ u.patchIndex = pj)) = 1 := by
  intro bugs
  induction bugs with
  | nil =>
    intro patches q hq hnd bid pss ps pi pj hmem
    exact absurd hmem (List.not_mem_nil _)
  | cons head rest ih =>
    obtain ⟨bid0, rec0⟩ := head
    intro patches q hq hnd bid pss ps pi pj hmem hlookup hpi hpj
    cases hl : patches.lookup bid0 with
    | none =>
      rw [create_evaluation_queue, hl] at hq
      exact absurd hq (by simp)
    | some pss0 =>
      cases hr : create_evaluation_queue rest patches with
      | none =>
        rw [create_evaluation_queue, hl, hr] at hq
        exact absurd hq (by simp)
      | some q2 =>
        rw [create_evaluation_queue, hl, hr] at hq
        rw [← Option.some.inj hq, List.countP_append]
        rw [List.map_cons, List.nodup_cons] at hnd
        obtain ⟨hb0, hnd2⟩ := hnd
        rw [List.map_cons] at hmem
        rcases List.mem_cons.mp hmem with heq | hmem2
        · subst heq
          have hpss : pss0 = pss := by
            rw [hl] at hlookup
            exact Option.some.inj hlookup
          subst hpss
          rw [countP_bugUnits_triple bid rec0.project rec0.number pi pj 0 pss0,
            countP_bugUnits_pair bid rec0.project rec0.number pi pj 0 pi pss0
              ps hpi (by omega) hpj]
          have hq2zero : q2.countP (fun u => decide (u.bugId = bid
              ∧ u.promptIndex = pi ∧ u.patchIndex = pj)) = 0 := by
            rw [List.countP_eq_zero]
            intro u hu
            obtain ⟨rec, pss2, ps2, hmem3, -, -, -, -, -⟩ :=
              mem_create_evaluation_queue rest patches q2 hr u hu
            simp only [decide_eq_true_eq]
            intro hcontra
            have hmm3 := List.mem_map_of_mem Prod.fst hmem3
            rw [← hcontra.1] at hb0
            exact hb0 hmm3
          rw [hq2zero]
        · have hbne : bid0 ≠ bid := by
            intro he
            exact hb0 (by rw [he]; exact hmem2)
          rw [countP_bugUnits_other_bug bid0 rec0.project rec0.number bid pi
            pj hbne 0 pss0]
          rw [ih patches q2 hr hnd2 bid pss ps pi pj hmem2 hlookup hpi hpj]

/-- A bug with patch entry `pss` contributes exactly `candidateCount pss`
units to the queue. -/
theorem countP_queue_bug :
    ∀ (bugs : List (String × BugRecord))
      (patches : List (String × List (List String))) (q : List QueuedUnit),
      create_evaluation_queue bugs patches = some q →
      (bugs.map Prod.fst).Nodup →
      ∀ (bid : String) (pss : List (List String)),
        bid ∈ bugs.map Prod.fst → patches.lookup bid = some pss →
        q.countP (fun u => decide (u.bugId = bid)) = candidateCount pss := by
  intro bugs
  induction bugs with
  | nil =>
    intro patches q hq hnd bid pss hmem
    exact absurd hmem (List.not_mem_nil _)
  | cons head rest ih =>
    obtain ⟨bid0, rec0⟩ := head
    intro patches q hq hnd bid pss hmem hlookup
    cases hl : patches.lookup bid0 with
    | none =>
      rw [create_evaluation_queue, hl] at hq
      exact absurd hq (by simp)
    | some pss0 =>
      cases hr : create_evaluation_queue rest patches with
      | none =>
        rw [create_evaluation_queue, hl, hr] at hq
        exact absurd hq (by simp)
      | some q2 =>
        rw [create_evaluation_queue, hl, hr] at hq
        rw [← Option.some.inj hq, List.countP_append]
        rw [List.map_cons, List.nodup_cons] at hnd
        obtain ⟨hb0, hnd2⟩ := hnd
        rw [List.map_cons] at hmem
        rcases List.mem_cons.mp hmem with heq | hmem2
        · subst heq
          have hpss : pss0 = pss := by
            rw [hl] at hlookup
            exact Option.some.inj hlookup
          subst hpss
          rw [countP_bugUnits_bug bid rec0.project rec0.number bid 0 pss0,
            if_pos rfl]
          have hq2zero : q2.countP (fun u => decide (u.bugId = bid)) = 0 := by
            rw [List.countP_eq_zero]
            intro u hu
            obtain ⟨rec, pss2, ps2, hmem3, -, -, -, -, -⟩ :=
              mem_create_evaluation_queue rest patches q2 hr u hu
            simp only [decide_eq_true_eq]
            intro hcontra
            have hmm3 := List.mem_map_of_mem Prod.fst hmem3
            rw [← hcontra] at hb0
            exact hb0 hmm3
          rw [hq2zero]
          omega
        · have hbne : bid0 ≠ bid := by
            intro he
            exact hb0 (by rw [he]; exact hmem2)
          rw [countP_bugUnits_bug bid0 rec0.project rec0.number bid 0 pss0,
            if_neg hbne, ih patches q2 hr hnd2 bid pss hmem2 hlookup]
          omega

/-- The queue length is the total number of candidate texts over the bug
dataset's entries. -/
theorem length_create_evaluation_queue :
    ∀ (bugs : List (String × BugRecord))
      (patches : List (String × List (List String))) (q : List QueuedUnit),
      create_evaluation_queue bugs patches = some q →
      q.length = (bugs.map (fun b =>
        candidateCount ((patches.lookup b.1).getD []))).sum := by
  intro bugs
  induction bugs with
  | nil =>
    intro patches q hq
    rw [create_evaluation_queue] at hq
    rw [← Option.some.inj hq]
    rfl
  | cons head rest ih =>
    obtain ⟨bid0, rec0⟩ := head
    intro patches q hq
    cases hl : patches.lookup bid0 with
    | none =>
      rw [create_evaluation_queue, hl] at hq
      exact absurd hq (by simp)
    | some pss0 =>
      cases hr : create_evaluation_queue rest patches with
      | none =>
        rw [create_evaluation_queue, hl, hr] at hq
        exact absurd hq (by simp)
      | some q2 =>
        rw [create_evaluation_queue, hl, hr] at hq
        rw [← Option.some.inj hq, List.length_append, List.map_cons,
          List.sum_cons, bugUnits_length, ih patches q2 hr]
        simp [hl]

/-- C10 counterexample: the queue loop iterates over the BUG dataset's
ids, so a patch-dataset entry whose bug id is absent from the bug dataset
is silently dropped.  With an empty bug dataset and one candidate in the
patch dataset the queue is empty although the patch dataset holds one
(bug, prompt, patch) triple — the queue length 0 differs from the total
candidate count 1. -/
theorem create_evaluation_queue_cex :
    create_evaluation_queue [] [("B-1", [["x"]])] = some []
    ∧ candidateCount [["x"]] = 1
    ∧ (0 : Nat) ≠ 1 :=
  ⟨rfl, rfl, by omega⟩

/-- C10 amended: over the bug identifiers PRESENT IN THE BUG DATASET
(assuming distinct dataset keys and that every bug id has a patch entry,
since a missing entry makes the build raise `KeyError`), the queue holds
exactly one unit per (bug id, prompt index, patch index) triple of the
patch dataset; its length is the total number of candidate texts of those
bugs; each unit carries the prompt and patch index of its candidate's
position and the candidate's literal text together with its bug's project
and number; and any shuffle — any permutation — of the queue preserves its
length and the multiplicity of every unit, adding, dropping and altering
nothing. -/
theorem create_evaluation_queue_spec
    (bugs : List (String × BugRecord))
    (patches : List (String × List (List String))) (q : List QueuedUnit)
    (hq : create_evaluation_queue bugs patches = some q)
    (hnd : (bugs.map Prod.fst).Nodup) :
    q.length = (bugs.map (fun b =>
        candidateCount ((patches.lookup b.1).getD []))).sum
    ∧ (∀ (bid : String) (rec : BugRecord) (pss : List (List String))
        (ps : List String) (pi pj : Nat) (t : String),
        (bid, rec) ∈ bugs → patches.lookup bid = some pss →
        pss.get? pi = some ps → ps.get? pj = some t →
        (q.filter (fun u => decide (u.bugId = bid ∧ u.promptIndex = pi
          ∧ u.patchIndex = pj))).length = 1
        ∧ ∀ u ∈ q, u.bugId = bid → u.promptIndex = pi → u.patchIndex = pj →
            u.project = rec.project ∧ u.number = rec.number ∧ u.text = t)
    ∧ ∀ shuffled : List QueuedUnit, shuffled.Perm q →
        shuffled.length = q.length ∧ ∀ u, shuffled.count u = q.count u := by
  refine ⟨length_create_evaluation_queue bugs patches q hq, ?_, ?_⟩
  · intro bid rec pss ps pi pj t hmem hlookup hpi hpj
    obtain ⟨hpjlen, -⟩ := List.get?_eq_some.mp hpj
    constructor
    · rw [← List.countP_eq_length_filter]
      exact countP_queue_triple bugs patches q hq hnd bid pss ps pi pj
        (List.mem_map_of_mem Prod.fst hmem) hlookup hpi hpjlen
    · intro u hu hbid hpiu hpju
      obtain ⟨rec2, pss2, ps2, hmem2, hp2, hn2, hlk2, hpi2, hpj2⟩ :=
        mem_create_evaluation_queue bugs patches q hq u hu
      rw [hbid] at hmem2 hlk2
      have hrec : rec2 = rec := assoc_value_unique bugs hnd bid rec2 rec
        hmem2 hmem
      have hpss : pss2 = pss := by
        rw [hlk2] at hlookup
        exact Option.some.inj hlookup
      rw [hpiu] at hpi2
      rw [hpss] at hpi2
      have hps : ps2 = ps := by
        rw [hpi2] at hpi
        exact Option.some.inj hpi
      rw [hpju, hps] at hpj2
      have ht : u.text = t := by
        rw [hpj2] at hpj
        exact Option.some.inj hpj
      exact ⟨by rw [hp2, hrec], by rw [hn2, hrec], ht⟩
  · intro shuffled hperm
    exact ⟨hperm.length_eq, fun u => hperm.count_eq u⟩

/-- Witness for C10's amended claim on a one-bug dataset with one prompt
of two candidates. -/
theorem create_evaluation_queue_spec_witness :
    ([⟨"B-1", "B", "1", 0, 0, "x"⟩, ⟨"B-1", "B", "1", 0, 1, "y"⟩] :
        List QueuedUnit).length
      = ([("B-1", BugRecord.mk "B" "1")].map (fun b =>
          candidateCount ((([("B-1", [["x", "y"]])]).lookup b.1).getD []))).sum
    ∧ (([⟨"B-1", "B", "1", 0, 0, "x"⟩, ⟨"B-1", "B", "1", 0, 1, "y"⟩] :
        List QueuedUnit).filter (fun u => decide (u.bugId = "B-1"
          ∧ u.promptIndex = 0 ∧ u.patchIndex = 1))).length = 1 := by
  have h := create_evaluation_queue_spec [("B-1", BugRecord.mk "B" "1")]
    [("B-1", [["x", "y"]])]
    [⟨"B-1", "B", "1", 0, 0, "x"⟩, ⟨"B-1", "B", "1", 0, 1, "y"⟩]
    rfl (by decide)
  exact ⟨h.1, (h.2.1 "B-1" (BugRecord.mk "B" "1") [["x", "y"]] ["x", "y"]
    0 1 "y" (by decide) rfl rfl rfl).1⟩

/-- C6: after a completed run — every queued unit awaited, classified with
some outcome and persisted once by `write_result` — the addresses written
under a bug B's directory number exactly B's candidate count, over any
shuffle of the queue; and for each (prompt, patch) position of B's patch
entry exactly one address exists across all outcome subdirectories, so
the outcome subdirectories partition the prompt's patch indices: no
candidate is lost or duplicated.  The hypothesis `hinj` states that B's
(project, number) pair identifies it among the dataset's bugs. -/
theorem results_files_partition
    (bugs : List (String × BugRecord))
    (patches : List (String × List (List String)))
    (q shuffled : List QueuedUnit) (outcomes : QueuedUnit → EvaluationResult)
    (hq : create_evaluation_queue bugs patches = some q)
    (hnd : (bugs.map Prod.fst).Nodup)
    (hperm : shuffled.Perm q)
    (bid : String) (rec : BugRecord) (pss : List (List String))
    (hmem : (bid, rec) ∈ bugs)
    (hlookup : patches.lookup bid = some pss)
    (hinj : ∀ (bid2 : String) (rec2 : BugRecord), (bid2, rec2) ∈ bugs →
      rec2.project = rec.project → rec2.number = rec.number → bid2 = bid) :
    ((shuffled.map (fun u => resultAddr u (outcomes u))).filter
        (fun a => decide (a.project = rec.project
          ∧ a.number = rec.number))).length
      = candidateCount pss
    ∧ ∀ (pi pj : Nat) (ps : List String) (t : String),
        pss.get? pi = some ps → ps.get? pj = some t →
        ((shuffled.map (fun u => resultAddr u (outcomes u))).filter
            (fun a => decide (a.project = rec.project ∧ a.number = rec.number
              ∧ a.promptIndex = pi ∧ a.patchIndex = pj))).length = 1 := by
  constructor
  · rw [← List.countP_eq_length_filter, List.countP_map, hperm.countP_eq]
    show List.countP (fun u => decide ((resultAddr u (outcomes u)).project
      = rec.project ∧ (resultAddr u (outcomes u)).number = rec.number)) q
      = candidateCount pss
    have hiff : ∀ u ∈ q,
        (decide ((resultAddr u (outcomes u)).project = rec.project
          ∧ (resultAddr u (outcomes u)).number = rec.number)) = true ↔
        (decide (u.bugId = bid)) = true := by
      intro u hu
      simp only [resultAddr, decide_eq_true_eq]
      obtain ⟨rec2, pss2, ps2, hmem2, hp2, hn2, -, -, -⟩ :=
        mem_create_evaluation_queue bugs patches q hq u hu
      constructor
      · rintro ⟨hp, hn⟩
        exact hinj u.bugId rec2 hmem2 (by rw [← hp2]; exact hp)
          (by rw [← hn2]; exact hn)
      · intro hbid
        rw [hbid] at hmem2
        have hrec : rec2 = rec :=
          assoc_value_unique bugs hnd bid rec2 rec hmem2 hmem
        exact ⟨by rw [hp2, hrec], by rw [hn2, hrec]⟩
    exact (List.countP_congr hiff).trans
      (countP_queue_bug bugs patches q hq hnd bid pss
        (List.mem_map_of_mem Prod.fst hmem) hlookup)
  · intro pi pj ps t hpi hpj
    obtain ⟨hpjlen, -⟩ := List.get?_eq_some.mp hpj
    rw [← List.countP_eq_length_filter, List.countP_map, hperm.countP_eq]
    show List.countP (fun u => decide ((resultAddr u (outcomes u)).project
      = rec.project ∧ (resultAddr u (outcomes u)).number = rec.number
      ∧ (resultAddr u (outcomes u)).promptIndex = pi
      ∧ (resultAddr u (outcomes u)).patchIndex = pj)) q = 1
    have hiff : ∀ u ∈ q,
        (decide ((resultAddr u (outcomes u)).project = rec.project
          ∧ (resultAddr u (outcomes u)).number = rec.number
          ∧ (resultAddr u (outcomes u)).promptIndex = pi
          ∧ (resultAddr u (outcomes u)).patchIndex = pj)) = true ↔
        (decide (u.bugId = bid ∧ u.promptIndex = pi
          ∧ u.patchIndex = pj)) = true := by
      intro u hu
      simp only [resultAddr, decide_eq_true_eq]
      obtain ⟨rec2, pss2, ps2, hmem2, hp2, hn2, -, -, -⟩ :=
        mem_create_evaluation_queue bugs patches q hq u hu
      constructor
      · rintro ⟨hp, hn, hpiu, hpju⟩
        exact ⟨hinj u.bugId rec2 hmem2 (by rw [← hp2]; exact hp)
          (by rw [← hn2]; exact hn), hpiu, hpju⟩
      · rintro ⟨hbid, hpiu, hpju⟩
        rw [hbid] at hmem2
        have hrec : rec2 = rec :=
          assoc_value_unique bugs hnd bid rec2 rec hmem2 hmem
        exact ⟨by rw [hp2, hrec], by rw [hn2, hrec], hpiu, hpju⟩
    exact (List.countP_congr hiff).trans
      (countP_queue_triple bugs patches q hq hnd bid pss ps pi pj
        (List.mem_map_of_mem Prod.fst hmem) hlookup hpi hpjlen)

/-- Witness for C6 on a one-bug dataset with two candidates, a shuffled
queue and every candidate classified plausible: two files under the bug,
and exactly one file for patch index 1. -/
theorem results_files_partition_witness :
    ((([⟨"B-1", "B", "1", 0, 1, "y"⟩, ⟨"B-1", "B", "1", 0, 0, "x"⟩] :
        List QueuedUnit).map
          (fun u => resultAddr u EvaluationResult.PLAUSIBLE)).filter
        (fun a => decide (a.project = "B" ∧ a.number = "1"))).length
      = candidateCount [["x", "y"]]
    ∧ ((([⟨"B-1", "B", "1", 0, 1, "y"⟩, ⟨"B-1", "B", "1", 0, 0, "x"⟩] :
        List QueuedUnit).map
          (fun u => resultAddr u EvaluationResult.PLAUSIBLE)).filter
        (fun a => decide (a.project = "B" ∧ a.number = "1"
          ∧ a.promptIndex = 0 ∧ a.patchIndex = 1))).length = 1 := by
  have h := results_files_partition [("B-1", BugRecord.mk "B" "1")]
    [("B-1", [["x", "y"]])]
    [⟨"B-1", "B", "1", 0, 0, "x"⟩, ⟨"B-1", "B", "1", 0, 1, "y"⟩]
    [⟨"B-1", "B", "1", 0, 1, "y"⟩, ⟨"B-1", "B", "1", 0, 0, "x"⟩]
    (fun _ => EvaluationResult.PLAUSIBLE) rfl (by decide)
    (List.Perm.swap _ _ _) "B-1" (BugRecord.mk "B" "1") [["x", "y"]]
    (by decide) rfl
    (by
      intro bid2 rec2 hm hp hn
      simp at hm
      exact hm.1)
  exact ⟨h.1, h.2 0 1 ["x", "y"] "y" rfl rfl⟩
